import Mathlib

/-!
Verification development for the SoD License Recommendation Tool
(`src/main.py`).

The program is a single-file data tool: it normalizes license-tier
strings, left-joins per-user activity records against a license catalog
keyed by `Tcode`, picks the highest-priority tier a user needs, computes
the user's current license as the statistical mode of the `License`
column, and classifies the gap between current and recommended tier.

Shallow embedding conventions:
* A Python scalar value is `PyVal`: either `PyVal.none` (Python `None`
  and pandas `NaN`, i.e. an absent cell) or `PyVal.str cs` (a string,
  held as the list of its Unicode code points, `List Nat`).
* `str.strip` / `str.title` / `str.upper` are embedded over code-point
  lists with ASCII letter semantics.
* pandas operations used by the program (`merge(how="left")`,
  `Series.mode`, `groupby`) are embedded by their documented semantics:
  left-merge emits one output row per (left row, matching right row)
  pair and one row with absent right fields when there is no match;
  `mode` drops absent values and returns the most frequent values sorted
  ascending; `groupby` iterates the distinct non-absent keys in sorted
  order, each group keeping the original row order.
-/

namespace SoD

/-- A Python scalar as seen by this program: an absent value (`None` /
`NaN`) or a string, stored as its list of Unicode code points. -/
inductive PyVal where
  | none : PyVal
  | str : List Nat → PyVal
deriving DecidableEq, Repr

/-- Code points of a Lean string literal, for writing `PyVal` strings. -/
def codes (s : String) : List Nat :=
  s.toList.map Char.toNat

/-- A Python string value written from a Lean literal. -/
def pv (s : String) : PyVal :=
  PyVal.str (codes s)

/-- Python truthiness for the values of this program: `None`/`NaN` and
the empty string are falsy, non-empty strings are truthy. -/
def pyTruthy : PyVal → Bool
  | PyVal.none => false
  | PyVal.str [] => false
  | PyVal.str (_ :: _) => true

/-- ASCII whitespace, the characters `str.strip` removes. -/
def isSpaceC (n : Nat) : Bool :=
  n = 32 || n = 9 || n = 10 || n = 13 || n = 11 || n = 12

/-- ASCII uppercase letter. -/
def isUpperC (n : Nat) : Bool :=
  65 ≤ n && n ≤ 90

/-- ASCII lowercase letter. -/
def isLowerC (n : Nat) : Bool :=
  97 ≤ n && n ≤ 122

/-- ASCII (cased) letter. -/
def isAlphaC (n : Nat) : Bool :=
  isUpperC n || isLowerC n

/-- Uppercase an ASCII code point. -/
def toUpperC (n : Nat) : Nat :=
  if isLowerC n then n - 32 else n

/-- Lowercase an ASCII code point. -/
def toLowerC (n : Nat) : Nat :=
  if isUpperC n then n + 32 else n

/-- Python `str.strip()`: drop leading and trailing whitespace. -/
def pyStrip (s : List Nat) : List Nat :=
  (((s.dropWhile isSpaceC).reverse.dropWhile isSpaceC)).reverse

/-- Worker for Python `str.title()`: the Boolean records whether the
previous character was a cased letter. A letter after a non-letter is
uppercased, a letter after a letter is lowercased, non-letters pass
through. -/
def pyTitleAux : List Nat → Bool → List Nat
  | [], _ => []
  | c :: rest, prev =>
    if isAlphaC c then
      (if prev then toLowerC c else toUpperC c) :: pyTitleAux rest true
    else
      c :: pyTitleAux rest false

/-- Python `str.title()`. -/
def pyTitle (s : List Nat) : List Nat :=
  pyTitleAux s false

/-- `normalize_license` (src/main.py:28-32): absent input stays absent,
otherwise strip whitespace and title-case. -/
def normalize_license : PyVal → PyVal
  | PyVal.none => PyVal.none
  | PyVal.str s => PyVal.str (pyTitle (pyStrip s))

/-- `LICENSE_PRIORITY.get(v, 0)` for the dictionary
`{"Professional": 3, "Functional": 2, "Productivity": 1}`
(src/main.py:25): lookup of a literal three-key dictionary with
default 0. -/
def priorityGet (v : PyVal) : Nat :=
  if v = pv "Professional" then 3
  else if v = pv "Functional" then 2
  else if v = pv "Productivity" then 1
  else 0

/-- Python `v in LICENSE_PRIORITY` (dictionary-key membership in the
literal dictionary of src/main.py:25). -/
def inPriority (v : PyVal) : Bool :=
  v = pv "Professional" || v = pv "Functional" || v = pv "Productivity"

/-- Python `max(iterable, key=...)` semantics: scan left to right and
replace the current best only on a strictly larger key, so the first
element attaining the maximum key wins. -/
def pymax (key : PyVal → Nat) : PyVal → List PyVal → PyVal
  | best, [] => best
  | best, x :: xs => if key best < key x then pymax key x xs else pymax key best xs

/-- The `"No Data"` sentinel returned by `get_highest_license`. -/
def NO_DATA : PyVal := pv "No Data"

/-- The `"Not Assigned"` sentinel used for a missing current license. -/
def NOT_ASSIGNED : PyVal := pv "Not Assigned"

/-- The local `license_list` comprehension of src/main.py:37:
`[normalize_license(lic) for lic in license_list if lic]`. -/
def normalizedOf (license_list : List PyVal) : List PyVal :=
  (license_list.filter pyTruthy).map normalize_license

/-- The local `valid_licenses` comprehension of src/main.py:38:
`[lic for lic in license_list if lic in LICENSE_PRIORITY]`. -/
def validOf (license_list : List PyVal) : List PyVal :=
  (normalizedOf license_list).filter inPriority

/-- The maximum priority rank among the valid entries of a list
(0 when there are none); used to state what `max(..., key=...)`
returns. -/
def maxRank (license_list : List PyVal) : Nat :=
  ((validOf license_list).map priorityGet).foldr Nat.max 0

/-- `get_highest_license` (src/main.py:35-41): filter truthy entries,
normalize them, keep the ones that are priority-table keys, and return
the one of maximum priority, or `"No Data"` if none remain. -/
def get_highest_license (license_list : List PyVal) : PyVal :=
  match validOf license_list with
  | [] => NO_DATA
  | v :: vs => pymax priorityGet v vs

/-- Status string `"✅ Optimized"`. -/
def OPTIMIZED : PyVal := pv "✅ Optimized"

/-- Status string `"🔻 Over-Licensed"`. -/
def OVER_LICENSED : PyVal := pv "🔻 Over-Licensed"

/-- Status string `"⚠️ Under-Licensed"`. -/
def UNDER_LICENSED : PyVal := pv "⚠️ Under-Licensed"

/-- Status string `"⚙️ Review"`. -/
def REVIEW : PyVal := pv "⚙️ Review"

/-- `determine_status` (src/main.py:44-53): normalize both arguments,
then compare for equality and by priority rank with default rank 0. -/
def determine_status (current recommended : PyVal) : PyVal :=
  let c := normalize_license current
  let r := normalize_license recommended
  if c = r then OPTIMIZED
  else if priorityGet c > priorityGet r then OVER_LICENSED
  else if priorityGet c < priorityGet r then UNDER_LICENSED
  else REVIEW

/-! ### The tabular pipeline: join, mode, validation, bulk report -/

/-- One row of the activity (`df_users`) dataset after load, holding the
columns the program reads: `Tcode`, `User Name`, `User ID`, `License`.
A missing optional column is modelled by the flags further down. -/
structure ActivityRow where
  tcode : PyVal
  userName : PyVal
  userID : PyVal
  license : PyVal
deriving DecidableEq, Repr

/-- One row of the catalog (`df_license_master`) dataset: `Tcode`,
`License Type`, `Description`. -/
structure CatalogRow where
  tcode : PyVal
  licenseType : PyVal
  description : PyVal
deriving DecidableEq, Repr

/-- One row of `merged` (src/main.py:90): activity columns plus the
catalog's `License Type` and `Description`, absent when unmatched. -/
structure MergedRow where
  tcode : PyVal
  userName : PyVal
  userID : PyVal
  license : PyVal
  licenseType : PyVal
  description : PyVal
deriving DecidableEq, Repr

/-- A joined row carrying a catalog match. -/
def matchedRow (u : ActivityRow) (c : CatalogRow) : MergedRow :=
  ⟨u.tcode, u.userName, u.userID, u.license, c.licenseType, c.description⟩

/-- A joined row with no catalog match: `License Type` and
`Description` become absent (`NaN`). -/
def unmatchedRow (u : ActivityRow) : MergedRow :=
  ⟨u.tcode, u.userName, u.userID, u.license, PyVal.none, PyVal.none⟩

/-- The output rows a single left row contributes to a pandas left
merge: one row per matching catalog row, or a single row with absent
right-hand fields when nothing matches. -/
def emitFor (cat : List CatalogRow) (u : ActivityRow) : List MergedRow :=
  match cat.filter (fun c => decide (c.tcode = u.tcode)) with
  | [] => [unmatchedRow u]
  | m :: ms => (m :: ms).map (matchedRow u)

/-- `pd.merge(df_users, df_license_master, on="Tcode", how="left")`
(src/main.py:90), embedded by pandas' documented left-outer-join
semantics: left rows in order, each fanned out over its catalog
matches in catalog order, unmatched rows kept once with absent
right-hand fields. -/
def mergeLeft (us : List ActivityRow) (cat : List CatalogRow) : List MergedRow :=
  us.flatMap (emitFor cat)

/-- Drop absent values: `Series.dropna()`. -/
def dropNone (l : List PyVal) : List PyVal :=
  l.filter (fun v => decide (v ≠ PyVal.none))

/-- Lexicographic order on code-point lists: how pandas sorts string
values (used by `Series.mode`, which returns its result sorted, and by
`groupby`, which sorts group keys). -/
def lexLe : List Nat → List Nat → Bool
  | [], _ => true
  | _ :: _, [] => false
  | a :: as, b :: bs => if a < b then true else if b < a then false else lexLe as bs

/-- Order on `PyVal` extending `lexLe`; absent sorts first (it never
occurs where this order is used, since `mode` and `groupby` drop
absent values first). -/
def pyLe : PyVal → PyVal → Bool
  | PyVal.none, _ => true
  | PyVal.str _, PyVal.none => false
  | PyVal.str a, PyVal.str b => lexLe a b

/-- `pyLe` as a decidable relation, for `List.insertionSort`. -/
def pyLeP (a b : PyVal) : Prop :=
  pyLe a b = true

instance : DecidableRel pyLeP :=
  fun a b => inferInstanceAs (Decidable (pyLe a b = true))

/-- `Series.mode()` (pandas): drop absent values, keep the values whose
occurrence count is maximal, return them sorted ascending. -/
def pdMode (l : List PyVal) : List PyVal :=
  let vals := dropNone l
  let uniq := vals.dedup
  let maxc := (uniq.map (fun v => vals.count v)).foldr Nat.max 0
  List.insertionSort pyLeP (uniq.filter (fun v => decide (vals.count v = maxc)))

/-- The current-license extraction (src/main.py:105-109 and 149-153):
if the `License` column exists and has a non-absent value in the group,
take `mode()[0]`, else the `"Not Assigned"` sentinel.
`hasLicenseCol` says whether the `License` column exists;
`licenseVals` are the group's `License` cells. -/
def current_license (hasLicenseCol : Bool) (licenseVals : List PyVal) : PyVal :=
  if hasLicenseCol && !(dropNone licenseVals).isEmpty then
    match pdMode licenseVals with
    | m :: _ => m
    | [] => NOT_ASSIGNED
  else NOT_ASSIGNED

/-! ### Input validation (src/main.py:72-87) -/

/-- The two blocking errors the program can raise while validating the
input columns (the `st.error` + `st.stop` pairs of src/main.py:72-74
and 81-87). -/
inductive ValidationError where
  | tcodeMissing
  | licenseTypeMissing
deriving DecidableEq, Repr

/-- Outcome of the column validation: a blocking error (processing
halts, no report is produced) or the go-ahead. -/
inductive ProcResult where
  | blocked : ValidationError → ProcResult
  | proceeds : ProcResult
deriving DecidableEq, Repr

/-- Column name `Tcode`. -/
def TCODE_COL : List Nat := codes "Tcode"

/-- Column name `User Name`. -/
def USER_NAME_COL : List Nat := codes "User Name"

/-- Column name `License Type`. -/
def LICENSE_TYPE_COL : List Nat := codes "License Type"

/-- The column checks of src/main.py:72-87 in program order: `Tcode`
must be in both datasets, then `License Type` must be in the catalog;
each failure reports an error and stops. No other column is checked. -/
def validate_columns (userCols masterCols : List (List Nat)) : ProcResult :=
  if TCODE_COL ∉ userCols ∨ TCODE_COL ∉ masterCols then
    ProcResult.blocked ValidationError.tcodeMissing
  else if LICENSE_TYPE_COL ∉ masterCols then
    ProcResult.blocked ValidationError.licenseTypeMissing
  else
    ProcResult.proceeds

/-! ### Bulk report (src/main.py:140-166) -/

/-- One row of `df_result` (src/main.py:156-164). -/
structure ReportRow where
  userName : PyVal
  userID : PyVal
  currentLicense : PyVal
  recommendedLicense : PyVal
  status : PyVal
deriving DecidableEq, Repr

/-- The per-group list `license_list` of src/main.py:145:
`[normalize_license(x) for x in group["License Type"].dropna().tolist()]`. -/
def licenseListOf (group : List MergedRow) : List PyVal :=
  (dropNone (group.map (fun m => m.licenseType))).map normalize_license

/-- The iteration keys of `merged.groupby("User Name")`
(src/main.py:144): distinct non-absent user names, sorted ascending. -/
def groupKeys (merged : List MergedRow) : List PyVal :=
  List.insertionSort pyLeP (dropNone (merged.map (fun m => m.userName))).dedup

/-- The group a `groupby` key stands for: the rows with that key, in
their original order. -/
def groupOf (merged : List MergedRow) (u : PyVal) : List MergedRow :=
  merged.filter (fun m => decide (m.userName = u))

/-- `group["User ID"].iloc[0] if "User ID" in group.columns else "N/A"`
(src/main.py:159). -/
def firstUserID (hasUserIDCol : Bool) (group : List MergedRow) : PyVal :=
  if hasUserIDCol then
    match group with
    | [] => PyVal.none
    | m :: _ => m.userID
  else pv "N/A"

/-- The body of the bulk-mode loop (src/main.py:144-164) for one user
group: recommendation, current license, status, one report row. -/
def assessUser (hasLicenseCol hasUserIDCol : Bool) (u : PyVal)
    (group : List MergedRow) : ReportRow :=
  let recommended := get_highest_license (licenseListOf group)
  let current := current_license hasLicenseCol (group.map (fun m => m.license))
  { userName := u
    userID := firstUserID hasUserIDCol group
    currentLicense := current
    recommendedLicense := recommended
    status := determine_status current recommended }

/-- `df_result` of bulk mode (src/main.py:143-166): one row per
`groupby` key. -/
def bulk_report (hasLicenseCol hasUserIDCol : Bool)
    (merged : List MergedRow) : List ReportRow :=
  (groupKeys merged).map
    (fun u => assessUser hasLicenseCol hasUserIDCol u (groupOf merged u))

/-! ### Reference definitions transcribed from the spec -/

/-- Reference rank function transcribed from the spec (§4.2): rank 3,
2, 1 for Professional, Functional, Productivity, and floor 0 for
anything not in the table, sentinels included. -/
def rank_spec (v : PyVal) : Nat :=
  if v = pv "Professional" then 3
  else if v = pv "Functional" then 2
  else if v = pv "Productivity" then 1
  else 0

/-- Reference classifier transcribed from the spec (§4.5, claim C1):
Optimized when the normalized current equals the normalized
recommended; Over-Licensed when rank(current) > rank(recommended);
Under-Licensed when rank(current) < rank(recommended); Review
otherwise; ranks are taken of the normalized values with unrecognized
and sentinel values ranked 0. -/
def classify_spec (current recommended : PyVal) : PyVal :=
  if normalize_license current = normalize_license recommended then OPTIMIZED
  else if rank_spec (normalize_license current) > rank_spec (normalize_license recommended) then OVER_LICENSED
  else if rank_spec (normalize_license current) < rank_spec (normalize_license recommended) then UNDER_LICENSED
  else REVIEW

/-- Reference current-license rule transcribed from the spec (§4.4,
claim C4): the most frequently occurring non-absent value of the
user's pre-join `License` field, ties broken by the deterministic rule
this development pins — the smallest such value in code-point
lexicographic order (what pandas `mode()[0]` yields) — and the
`"Not Assigned"` sentinel when the column is missing or the field is
absent in every record. Intended to be applied to the user's pre-join
activity records. -/
def spec_current_license (hasLicenseCol : Bool) (preJoinVals : List PyVal) : PyVal :=
  if hasLicenseCol && !(dropNone preJoinVals).isEmpty then
    match pdMode preJoinVals with
    | m :: _ => m
    | [] => NOT_ASSIGNED
  else NOT_ASSIGNED

/-! ## Helper lemmas: the lexicographic order -/

theorem lexLe_total : ∀ a b : List Nat, lexLe a b = true ∨ lexLe b a = true := by
  intro a
  induction a with
  | nil => intro b; left; rfl
  | cons x xs ih =>
    intro b
    cases b with
    | nil => right; rfl
    | cons y ys =>
      simp only [lexLe]
      rcases Nat.lt_trichotomy x y with h | h | h
      · left; simp [h]
      · subst h
        rcases ih ys with h' | h' <;> [left; right] <;> simp [Nat.lt_irrefl, h']
      · right; simp [h]

theorem lexLe_trans : ∀ a b c : List Nat,
    lexLe a b = true → lexLe b c = true → lexLe a c = true := by
  intro a
  induction a with
  | nil => intro b c _ _; rfl
  | cons x xs ih =>
    intro b c hab hbc
    cases b with
    | nil => simp [lexLe] at hab
    | cons y ys =>
      cases c with
      | nil => simp [lexLe] at hbc
      | cons z zs =>
        simp only [lexLe] at hab hbc ⊢
        rcases Nat.lt_trichotomy x y with h1 | h1 | h1
        · rcases Nat.lt_trichotomy y z with h2 | h2 | h2
          · simp [show x < z by omega]
          · subst h2; simp [h1]
          · simp [show ¬ y < z by omega, h2] at hbc
        · subst h1
          rcases Nat.lt_trichotomy x z with h2 | h2 | h2
          · simp [h2]
          · subst h2
            simp only [Nat.lt_irrefl, if_false] at hab hbc ⊢
            exact ih ys zs hab hbc
          · simp [show ¬ x < z by omega, h2] at hbc
        · simp [show ¬ x < y by omega, h1] at hab

theorem lexLe_antisymm : ∀ a b : List Nat,
    lexLe a b = true → lexLe b a = true → a = b := by
  intro a
  induction a with
  | nil =>
    intro b _ hba
    cases b with
    | nil => rfl
    | cons y ys => simp [lexLe] at hba
  | cons x xs ih =>
    intro b hab hba
    cases b with
    | nil => simp [lexLe] at hab
    | cons y ys =>
      simp only [lexLe] at hab hba
      split_ifs at hab hba with h1 h2 h3 h4
      all_goals first
        | omega
        | (have hxy : x = y := by omega
           subst hxy
           exact congrArg (x :: ·) (ih ys hab hba))

theorem pyLe_total : ∀ a b : PyVal, pyLe a b = true ∨ pyLe b a = true := by
  intro a b
  cases a <;> cases b <;> simp [pyLe] <;> apply lexLe_total

theorem pyLe_trans : ∀ a b c : PyVal,
    pyLe a b = true → pyLe b c = true → pyLe a c = true := by
  intro a b c hab hbc
  cases a <;> cases b <;> cases c <;> simp_all [pyLe]
  exact lexLe_trans _ _ _ hab hbc

theorem pyLe_antisymm : ∀ a b : PyVal,
    pyLe a b = true → pyLe b a = true → a = b := by
  intro a b hab hba
  cases a <;> cases b <;> simp_all [pyLe]
  exact lexLe_antisymm _ _ hab hba

/-! ## Helper lemmas: characters, strip and title -/

theorem isUpperC_iff (n : Nat) : isUpperC n = true ↔ 65 ≤ n ∧ n ≤ 90 := by
  simp [isUpperC]

theorem isLowerC_iff (n : Nat) : isLowerC n = true ↔ 97 ≤ n ∧ n ≤ 122 := by
  simp [isLowerC]

theorem isAlphaC_iff (n : Nat) :
    isAlphaC n = true ↔ (65 ≤ n ∧ n ≤ 90) ∨ (97 ≤ n ∧ n ≤ 122) := by
  simp [isAlphaC, isUpperC, isLowerC]

theorem isSpaceC_iff (n : Nat) :
    isSpaceC n = true ↔ n = 32 ∨ n = 9 ∨ n = 10 ∨ n = 13 ∨ n = 11 ∨ n = 12 := by
  simp only [isSpaceC, Bool.or_eq_true, decide_eq_true_eq]
  omega

theorem isSpaceC_of_alpha (n : Nat) (h : isAlphaC n = true) : isSpaceC n = false := by
  rcases Bool.eq_false_or_eq_true (isSpaceC n) with ht | hf
  · exfalso
    rw [isSpaceC_iff] at ht
    rw [isAlphaC_iff] at h
    omega
  · exact hf

theorem toUpperC_alpha (n : Nat) (h : isAlphaC n = true) : isAlphaC (toUpperC n) = true := by
  rw [isAlphaC_iff] at h
  unfold toUpperC
  split_ifs with hl
  · rw [isLowerC_iff] at hl
    rw [isAlphaC_iff]
    omega
  · rw [isLowerC_iff] at hl
    rw [isAlphaC_iff]
    omega

theorem toLowerC_alpha (n : Nat) (h : isAlphaC n = true) : isAlphaC (toLowerC n) = true := by
  rw [isAlphaC_iff] at h
  unfold toLowerC
  split_ifs with hl
  · rw [isUpperC_iff] at hl
    rw [isAlphaC_iff]
    omega
  · rw [isUpperC_iff] at hl
    rw [isAlphaC_iff]
    omega

theorem toUpperC_idem (n : Nat) : toUpperC (toUpperC n) = toUpperC n := by
  unfold toUpperC
  split_ifs with h1 h2 h3 <;>
    first
    | rfl
    | (rw [isLowerC_iff] at *; omega)

theorem toLowerC_idem (n : Nat) : toLowerC (toLowerC n) = toLowerC n := by
  unfold toLowerC
  split_ifs with h1 h2 h3 <;>
    first
    | rfl
    | (rw [isUpperC_iff] at *; omega)

theorem isSpaceC_toUpperC (n : Nat) : isSpaceC (toUpperC n) = isSpaceC n := by
  unfold toUpperC
  split_ifs with h
  · rw [isLowerC_iff] at h
    have h1 : isSpaceC (n - 32) = false := by
      rcases Bool.eq_false_or_eq_true (isSpaceC (n - 32)) with ht | hf
      · exfalso; rw [isSpaceC_iff] at ht; omega
      · exact hf
    have h2 : isSpaceC n = false := by
      rcases Bool.eq_false_or_eq_true (isSpaceC n) with ht | hf
      · exfalso; rw [isSpaceC_iff] at ht; omega
      · exact hf
    rw [h1, h2]
  · rfl

theorem isSpaceC_toLowerC (n : Nat) : isSpaceC (toLowerC n) = isSpaceC n := by
  unfold toLowerC
  split_ifs with h
  · rw [isUpperC_iff] at h
    have h1 : isSpaceC (n + 32) = false := by
      rcases Bool.eq_false_or_eq_true (isSpaceC (n + 32)) with ht | hf
      · exfalso; rw [isSpaceC_iff] at ht; omega
      · exact hf
    have h2 : isSpaceC n = false := by
      rcases Bool.eq_false_or_eq_true (isSpaceC n) with ht | hf
      · exfalso; rw [isSpaceC_iff] at ht; omega
      · exact hf
    rw [h1, h2]
  · rfl

theorem pyTitleAux_map_isSpace : ∀ (s : List Nat) (b : Bool),
    (pyTitleAux s b).map isSpaceC = s.map isSpaceC := by
  intro s
  induction s with
  | nil => intro b; rfl
  | cons c rest ih =>
    intro b
    cases ha : isAlphaC c <;>
      cases b <;>
        simp [pyTitleAux, ha, ih, isSpaceC_toUpperC, isSpaceC_toLowerC]

theorem pyTitleAux_idem : ∀ (s : List Nat) (b : Bool),
    pyTitleAux (pyTitleAux s b) b = pyTitleAux s b := by
  intro s
  induction s with
  | nil => intro b; rfl
  | cons c rest ih =>
    intro b
    cases ha : isAlphaC c with
    | true =>
      cases b with
      | false =>
        have h1 := toUpperC_alpha c ha
        simp [pyTitleAux, ha, h1, toUpperC_idem, ih]
      | true =>
        have h1 := toLowerC_alpha c ha
        simp [pyTitleAux, ha, h1, toLowerC_idem, ih]
    | false =>
      simp [pyTitleAux, ha, ih]

theorem head?_dropWhile_false {α : Type} (p : α → Bool) :
    ∀ (l : List α) (c : α), (l.dropWhile p).head? = Option.some c → p c = false := by
  intro l
  induction l with
  | nil => intro c h; simp [List.dropWhile] at h
  | cons x xs ih =>
    intro c h
    rw [List.dropWhile_cons] at h
    split_ifs at h with hp
    · exact ih c h
    · simp only [List.head?_cons, Option.some.injEq] at h
      subst h
      simpa using hp

theorem getLast?_dropWhile {α : Type} (p : α → Bool) :
    ∀ l : List α, l.dropWhile p ≠ [] → (l.dropWhile p).getLast? = l.getLast? := by
  intro l
  induction l with
  | nil => intro h; simp [List.dropWhile] at h
  | cons x xs ih =>
    intro h
    rw [List.dropWhile_cons] at h ⊢
    split_ifs at h ⊢ with hp
    · have hxs : xs ≠ [] := by
        intro he; subst he; simp [List.dropWhile] at h
      cases xs with
      | nil => exact absurd rfl hxs
      | cons y ys => rw [ih h, List.getLast?_cons_cons]
    · rfl

theorem dropWhile_eq_self_of_head {α : Type} (p : α → Bool) (l : List α)
    (h : ∀ c, l.head? = Option.some c → p c = false) : l.dropWhile p = l := by
  cases l with
  | nil => rfl
  | cons x xs =>
    rw [List.dropWhile_cons, if_neg]
    simp [h x rfl]

theorem pyStrip_head (s : List Nat) (c : Nat)
    (h : (pyStrip s).head? = Option.some c) : isSpaceC c = false := by
  unfold pyStrip at h
  rw [List.head?_reverse] at h
  have hne : (s.dropWhile isSpaceC).reverse.dropWhile isSpaceC ≠ [] := by
    intro he; rw [he] at h; simp at h
  rw [getLast?_dropWhile isSpaceC _ hne, List.getLast?_reverse] at h
  exact head?_dropWhile_false isSpaceC s c h

theorem pyStrip_last (s : List Nat) (c : Nat)
    (h : (pyStrip s).getLast? = Option.some c) : isSpaceC c = false := by
  unfold pyStrip at h
  rw [List.getLast?_reverse] at h
  exact head?_dropWhile_false isSpaceC _ c h

theorem pyStrip_eq_self (s : List Nat)
    (h1 : ∀ c, s.head? = Option.some c → isSpaceC c = false)
    (h2 : ∀ c, s.getLast? = Option.some c → isSpaceC c = false) : pyStrip s = s := by
  unfold pyStrip
  rw [dropWhile_eq_self_of_head isSpaceC s h1]
  rw [dropWhile_eq_self_of_head isSpaceC s.reverse
    (fun c hc => h2 c (by rwa [List.head?_reverse] at hc))]
  exact List.reverse_reverse s

theorem pyTitle_head (t : List Nat) (c : Nat)
    (h : (pyTitle t).head? = Option.some c)
    (ht : ∀ d, t.head? = Option.some d → isSpaceC d = false) : isSpaceC c = false := by
  have hmap := pyTitleAux_map_isSpace t false
  have h1 : ((pyTitle t).map isSpaceC).head? = ((t.map isSpaceC)).head? := by
    unfold pyTitle; rw [hmap]
  rw [List.head?_map, List.head?_map, h] at h1
  cases hd : t.head? with
  | none => rw [hd] at h1; simp at h1
  | some d =>
    rw [hd] at h1
    simp at h1
    rw [h1]
    exact ht d hd

theorem pyTitle_last (t : List Nat) (c : Nat)
    (h : (pyTitle t).getLast? = Option.some c)
    (ht : ∀ d, t.getLast? = Option.some d → isSpaceC d = false) : isSpaceC c = false := by
  have hmap := pyTitleAux_map_isSpace t false
  have h1 : ((pyTitle t).map isSpaceC).getLast? = ((t.map isSpaceC)).getLast? := by
    unfold pyTitle; rw [hmap]
  rw [List.getLast?_map, List.getLast?_map, h] at h1
  cases hd : t.getLast? with
  | none => rw [hd] at h1; simp at h1
  | some d =>
    rw [hd] at h1
    simp at h1
    rw [h1]
    exact ht d hd

theorem pyStrip_pyTitle_pyStrip (s : List Nat) :
    pyStrip (pyTitle (pyStrip s)) = pyTitle (pyStrip s) := by
  apply pyStrip_eq_self
  · intro c hc
    exact pyTitle_head (pyStrip s) c hc (pyStrip_head s)
  · intro c hc
    exact pyTitle_last (pyStrip s) c hc (pyStrip_last s)

/-! ## Claim theorems: normalizer and classifier -/

/-- C7: `normalize_license` is a pure function that is idempotent and
absent-preserving: normalizing twice equals normalizing once, and an
absent input stays absent. -/
theorem normalize_license_idempotent :
    (∀ v : PyVal, normalize_license (normalize_license v) = normalize_license v)
    ∧ normalize_license PyVal.none = PyVal.none := by
  constructor
  · intro v
    cases v with
    | none => rfl
    | str s =>
      show PyVal.str (pyTitle (pyStrip (pyTitle (pyStrip s)))) = PyVal.str (pyTitle (pyStrip s))
      rw [pyStrip_pyTitle_pyStrip]
      unfold pyTitle
      rw [pyTitleAux_idem]
  · rfl

/-- C6: the sentinels "Not Assigned" (current) and "No Data"
(recommended) stay distinct under normalization, both rank 0, and
`determine_status` on them yields Review, not Optimized. -/
theorem sentinel_pair_gives_review :
    normalize_license NOT_ASSIGNED ≠ normalize_license NO_DATA
    ∧ priorityGet (normalize_license NOT_ASSIGNED) = 0
    ∧ priorityGet (normalize_license NO_DATA) = 0
    ∧ determine_status NOT_ASSIGNED NO_DATA = REVIEW := by
  refine ⟨by decide, by decide, by decide, by decide⟩

/-- C1: `determine_status` coincides with the spec's four-case
reference classifier, is total with a result among the four status
values, and sends every recognized tier paired with itself to
Optimized. -/
theorem determine_status_spec :
    (∀ c r, determine_status c r = classify_spec c r)
    ∧ (∀ c r, determine_status c r = OPTIMIZED ∨ determine_status c r = OVER_LICENSED
        ∨ determine_status c r = UNDER_LICENSED ∨ determine_status c r = REVIEW)
    ∧ (∀ t, inPriority t = true → determine_status t t = OPTIMIZED) := by
  refine ⟨fun c r => rfl, ?_, ?_⟩
  · intro c r
    simp only [determine_status]
    split_ifs <;> simp
  · intro t _
    simp [determine_status]

/-- Witness for C1: the recognized tier Functional classified against
itself is Optimized. -/
theorem determine_status_spec_witness :
    inPriority (pv "Functional") = true
    ∧ determine_status (pv "Functional") (pv "Functional") = OPTIMIZED :=
  ⟨by decide, determine_status_spec.2.2 (pv "Functional") (by decide)⟩

/-! ## Helper lemmas: pymax, folds, and the priority table -/

theorem pymax_mem (key : PyVal → Nat) :
    ∀ (vs : List PyVal) (v : PyVal), pymax key v vs ∈ v :: vs := by
  intro vs
  induction vs with
  | nil => intro v; simp [pymax]
  | cons x xs ih =>
    intro v
    simp only [pymax]
    split_ifs with h
    · have hx := ih x
      simp only [List.mem_cons] at hx ⊢
      tauto
    · have hv := ih v
      simp only [List.mem_cons] at hv ⊢
      tauto

theorem nat_max_eq_left {a b : Nat} (h : b ≤ a) : Nat.max a b = a :=
  max_eq_left h

theorem nat_max_eq_right {a b : Nat} (h : a ≤ b) : Nat.max a b = b :=
  max_eq_right h

theorem nat_max_assoc (a b c : Nat) : Nat.max (Nat.max a b) c = Nat.max a (Nat.max b c) :=
  max_assoc a b c

theorem le_foldr_max : ∀ (L : List Nat) (x : Nat), x ∈ L → x ≤ L.foldr Nat.max 0 := by
  intro L
  induction L with
  | nil => intro x hx; simp at hx
  | cons a L ih =>
    intro x hx
    rcases List.mem_cons.mp hx with h | h
    · subst h; exact le_max_left _ _
    · exact le_trans (ih x h) (le_max_right _ _)

theorem foldr_max_mem : ∀ L : List Nat, L ≠ [] → L.foldr Nat.max 0 ∈ L := by
  intro L
  induction L with
  | nil => intro h; exact absurd rfl h
  | cons a L ih =>
    intro _
    cases hL : L with
    | nil => subst hL; simp
    | cons b L2 =>
      rw [← hL]
      have hne : L ≠ [] := by simp [hL]
      rcases le_total (L.foldr Nat.max 0) a with h | h
      · simp only [List.foldr_cons]
        rw [nat_max_eq_left h]
        exact List.mem_cons_self a L
      · simp only [List.foldr_cons]
        rw [nat_max_eq_right h]
        exact List.mem_cons_of_mem a (ih hne)

theorem pymax_key (key : PyVal → Nat) :
    ∀ (vs : List PyVal) (v : PyVal),
      key (pymax key v vs) = Nat.max (key v) ((vs.map key).foldr Nat.max 0) := by
  intro vs
  induction vs with
  | nil => intro v; simp [pymax]
  | cons x xs ih =>
    intro v
    simp only [pymax, List.map_cons, List.foldr_cons]
    split_ifs with h
    · rw [ih x, nat_max_eq_right (le_trans (le_of_lt h) (le_max_left _ _))]
    · rw [ih v, ← nat_max_assoc, nat_max_eq_left (le_of_not_lt h)]

theorem inPriority_cases (v : PyVal) (h : inPriority v = true) :
    v = pv "Professional" ∨ v = pv "Functional" ∨ v = pv "Productivity" := by
  simp only [inPriority, Bool.or_eq_true, decide_eq_true_eq] at h
  tauto

theorem priorityGet_inj (a b : PyVal) (ha : inPriority a = true) (hb : inPriority b = true)
    (h : priorityGet a = priorityGet b) : a = b := by
  rcases inPriority_cases a ha with h1 | h1 | h1 <;>
    rcases inPriority_cases b hb with h2 | h2 | h2 <;>
      subst h1 <;> subst h2 <;>
        first
        | rfl
        | (exfalso; revert h; decide)

/-! ## Claim theorems: get_highest_license -/

/-- C9: `get_highest_license` only ever returns the No Data sentinel or
one of the three recognized tiers, whatever the input list holds. -/
theorem get_highest_license_range (l : List PyVal) :
    get_highest_license l = NO_DATA ∨ get_highest_license l = pv "Productivity"
    ∨ get_highest_license l = pv "Functional"
    ∨ get_highest_license l = pv "Professional" := by
  unfold get_highest_license
  cases hv : validOf l with
  | nil => left; rfl
  | cons v vs =>
    have hmem : pymax priorityGet v vs ∈ v :: vs := pymax_mem priorityGet vs v
    rw [← hv] at hmem
    have hin : inPriority (pymax priorityGet v vs) = true :=
      (List.mem_filter.mp hmem).2
    rcases inPriority_cases _ hin with h | h | h
    · right; right; right; exact h
    · right; right; left; exact h
    · right; left; exact h

/-- C2: `get_highest_license` returns "No Data" on an empty list or on
any list with no recognized entry; on a list with recognized entries it
returns a recognized entry of maximum rank; the result is invariant
under permutation of the input; and the spec's concrete examples hold. -/
theorem get_highest_license_spec :
    get_highest_license [] = NO_DATA
    ∧ (∀ l, validOf l = [] → get_highest_license l = NO_DATA)
    ∧ (∀ l, validOf l ≠ [] →
        get_highest_license l ∈ validOf l
        ∧ priorityGet (get_highest_license l) = maxRank l)
    ∧ (∀ l l2, l.Perm l2 → get_highest_license l = get_highest_license l2)
    ∧ get_highest_license [pv "Productivity", pv "Professional", pv "Functional"]
        = pv "Professional"
    ∧ get_highest_license [pv "Productivity"] = pv "Productivity" := by
  have key_valid : ∀ l, validOf l ≠ [] →
      get_highest_license l ∈ validOf l
      ∧ priorityGet (get_highest_license l) = maxRank l := by
    intro l hne
    cases hv : validOf l with
    | nil => exact absurd hv hne
    | cons v vs =>
      have hg : get_highest_license l = pymax priorityGet v vs := by
        unfold get_highest_license
        rw [hv]
      constructor
      · rw [hg]
        exact pymax_mem priorityGet vs v
      · rw [hg, pymax_key priorityGet vs v]
        unfold maxRank
        rw [hv]
        simp
  have key_inP : ∀ l x, x ∈ validOf l → inPriority x = true := by
    intro l x hx
    unfold validOf at hx
    exact (List.mem_filter.mp hx).2
  refine ⟨by decide, ?_, key_valid, ?_, by decide, by decide⟩
  · intro l h
    simp [get_highest_license, h]
  · intro l l2 hp
    have hperm : (validOf l).Perm (validOf l2) :=
      ((hp.filter pyTruthy).map normalize_license).filter inPriority
    by_cases h1 : validOf l = []
    · have h2 : validOf l2 = [] := by
        rw [h1] at hperm
        exact hperm.symm.eq_nil
      simp [get_highest_license, h1, h2]
    · have h2 : validOf l2 ≠ [] := by
        intro h2
        rw [h2] at hperm
        exact h1 hperm.eq_nil
      obtain ⟨hm1, hr1⟩ := key_valid l h1
      obtain ⟨hm2, hr2⟩ := key_valid l2 h2
      have hmx : maxRank l = maxRank l2 := by
        have hpm : ((validOf l).map priorityGet).Perm ((validOf l2).map priorityGet) :=
          hperm.map priorityGet
        have hne1 : (validOf l).map priorityGet ≠ [] := by
          simpa using h1
        have hne2 : (validOf l2).map priorityGet ≠ [] := by
          simpa using h2
        apply Nat.le_antisymm
        · exact le_foldr_max _ _ (hpm.mem_iff.mp (foldr_max_mem _ hne1))
        · exact le_foldr_max _ _ (hpm.symm.mem_iff.mp (foldr_max_mem _ hne2))
      exact priorityGet_inj _ _ (key_inP l _ hm1) (key_inP l2 _ hm2)
        (by rw [hr1, hr2, hmx])

/-- Witness for C2: on the singleton list [Functional] the result is a
recognized entry of maximum rank. -/
theorem get_highest_license_spec_witness :
    get_highest_license [pv "Functional"] ∈ validOf [pv "Functional"]
    ∧ priorityGet (get_highest_license [pv "Functional"]) = maxRank [pv "Functional"] :=
  get_highest_license_spec.2.2.1 [pv "Functional"] (by decide)

/-- C10: when both arguments normalize to recognized tiers of the
priority table, the Review fallback is unreachable: the status is
Optimized, Over-Licensed or Under-Licensed. -/
theorem review_unreachable_on_recognized (c r : PyVal)
    (hc : inPriority (normalize_license c) = true)
    (hr : inPriority (normalize_license r) = true) :
    (determine_status c r = OPTIMIZED ∨ determine_status c r = OVER_LICENSED
      ∨ determine_status c r = UNDER_LICENSED)
    ∧ determine_status c r ≠ REVIEW := by
  simp only [determine_status]
  split_ifs with h1 h2 h3
  · exact ⟨Or.inl rfl, by decide⟩
  · exact ⟨Or.inr (Or.inl rfl), by decide⟩
  · exact ⟨Or.inr (Or.inr rfl), by decide⟩
  · exact absurd (priorityGet_inj _ _ hc hr (by omega)) h1

/-- Witness for C10: Professional vs Functional, both recognized, is
not Review. -/
theorem review_unreachable_on_recognized_witness :
    determine_status (pv "Professional") (pv "Functional") ≠ REVIEW :=
  (review_unreachable_on_recognized (pv "Professional") (pv "Functional")
    (by decide) (by decide)).2

/-! ## Helper lemmas: the left merge -/

theorem mergeLeft_cons (r : ActivityRow) (rest : List ActivityRow) (cat : List CatalogRow) :
    mergeLeft (r :: rest) cat = emitFor cat r ++ mergeLeft rest cat :=
  List.flatMap_cons r rest (emitFor cat)

theorem emitFor_length_pos (cat : List CatalogRow) (u : ActivityRow) :
    1 ≤ (emitFor cat u).length := by
  unfold emitFor
  cases h : cat.filter (fun c => decide (c.tcode = u.tcode)) with
  | nil => simp
  | cons m ms => simp

theorem emitFor_fields (cat : List CatalogRow) (u : ActivityRow) (m : MergedRow)
    (hm : m ∈ emitFor cat u) :
    m.tcode = u.tcode ∧ m.userName = u.userName ∧ m.userID = u.userID
      ∧ m.license = u.license := by
  unfold emitFor at hm
  split at hm
  · simp only [List.mem_singleton] at hm
    subst hm
    exact ⟨rfl, rfl, rfl, rfl⟩
  · simp only [List.mem_map] at hm
    obtain ⟨c2, _, hc2⟩ := hm
    subst hc2
    exact ⟨rfl, rfl, rfl, rfl⟩

theorem emitFor_exists (cat : List CatalogRow) (u : ActivityRow) :
    ∃ m ∈ emitFor cat u, m.tcode = u.tcode ∧ m.userName = u.userName
      ∧ m.userID = u.userID ∧ m.license = u.license := by
  unfold emitFor
  cases h : cat.filter (fun c => decide (c.tcode = u.tcode)) with
  | nil => exact ⟨unmatchedRow u, by simp, rfl, rfl, rfl, rfl⟩
  | cons c cs => exact ⟨matchedRow u c, by simp, rfl, rfl, rfl, rfl⟩

theorem unmatchedRow_inj {a b : ActivityRow} (h : unmatchedRow a = unmatchedRow b) :
    a = b := by
  cases a
  cases b
  simp_all [unmatchedRow]

theorem emitFor_count_unmatched (cat : List CatalogRow) (u r : ActivityRow)
    (h : cat.filter (fun c => decide (c.tcode = u.tcode)) = []) :
    (emitFor cat r).count (unmatchedRow u) = if r = u then 1 else 0 := by
  by_cases hr : r = u
  · subst hr
    unfold emitFor
    rw [h]
    simp
  · rw [if_neg hr]
    unfold emitFor
    cases hm : cat.filter (fun c => decide (c.tcode = r.tcode)) with
    | nil =>
      apply List.count_eq_zero.mpr
      simp only [List.mem_singleton]
      intro he
      exact hr (unmatchedRow_inj he).symm
    | cons c cs =>
      apply List.count_eq_zero.mpr
      intro hmem
      simp only [List.mem_map] at hmem
      obtain ⟨c2, _, he⟩ := hmem
      have htc : r.tcode = u.tcode := congrArg MergedRow.tcode he
      simp only [htc] at hm
      rw [h] at hm
      exact List.noConfusion hm

/-! ## Claim theorem: the join (C3) -/

/-- C3: the join is a left outer join: the output has at least one row
per activity row; every activity row appears in the output with its
fields preserved; and an activity row whose key has no catalog match
appears as an unmatched row (absent tier and description) exactly as
often as it occurs in the input — never dropped, never deduplicated. -/
theorem mergeLeft_left_outer :
    (∀ (us : List ActivityRow) (cat : List CatalogRow),
      us.length ≤ (mergeLeft us cat).length)
    ∧ (∀ (us : List ActivityRow) (cat : List CatalogRow) (u : ActivityRow), u ∈ us →
        ∃ m ∈ mergeLeft us cat, m.tcode = u.tcode ∧ m.userName = u.userName
          ∧ m.userID = u.userID ∧ m.license = u.license)
    ∧ (∀ (us : List ActivityRow) (cat : List CatalogRow) (u : ActivityRow),
        cat.filter (fun c => decide (c.tcode = u.tcode)) = [] →
        (mergeLeft us cat).count (unmatchedRow u) = us.count u) := by
  refine ⟨?_, ?_, ?_⟩
  · intro us cat
    induction us with
    | nil => simp [mergeLeft]
    | cons r rest ih =>
      rw [mergeLeft_cons, List.length_append]
      have h1 := emitFor_length_pos cat r
      simp only [List.length_cons]
      omega
  · intro us cat u hu
    obtain ⟨m, hm, hf⟩ := emitFor_exists cat u
    exact ⟨m, List.mem_flatMap.mpr ⟨u, hu, hm⟩, hf⟩
  · intro us cat u h
    induction us with
    | nil => simp [mergeLeft]
    | cons r rest ih =>
      rw [mergeLeft_cons, List.count_append, ih, List.count_cons,
        emitFor_count_unmatched cat u r h]
      simp only [beq_iff_eq]
      omega

/-- Witness for C3: a single activity row with an empty catalog is
kept once as an unmatched row. -/
theorem mergeLeft_left_outer_witness :
    (mergeLeft [⟨pv "T1", pv "U", PyVal.none, PyVal.none⟩] []).count
        (unmatchedRow ⟨pv "T1", pv "U", PyVal.none, PyVal.none⟩)
      = [(⟨pv "T1", pv "U", PyVal.none, PyVal.none⟩ : ActivityRow)].count
          ⟨pv "T1", pv "U", PyVal.none, PyVal.none⟩ :=
  mergeLeft_left_outer.2.2 [⟨pv "T1", pv "U", PyVal.none, PyVal.none⟩] []
    ⟨pv "T1", pv "U", PyVal.none, PyVal.none⟩ (by decide)

/-! ## Helper lemmas: pandas mode -/

theorem sorted_head_min (L : List PyVal) (m : PyVal) (rest : List PyVal)
    (hs : List.insertionSort pyLeP L = m :: rest) :
    ∀ v ∈ L, pyLe m v = true := by
  haveI : IsTotal PyVal pyLeP := ⟨pyLe_total⟩
  haveI : IsTrans PyVal pyLeP := ⟨fun a b c => pyLe_trans a b c⟩
  intro v hv
  have hsort := List.sorted_insertionSort pyLeP L
  rw [hs] at hsort
  have hvmem : v ∈ m :: rest := by
    rw [← hs]
    exact (List.perm_insertionSort pyLeP L).mem_iff.mpr hv
  rcases List.mem_cons.mp hvmem with h | h
  · subst h
    rcases pyLe_total v v with h2 | h2 <;> exact h2
  · exact List.rel_of_sorted_cons hsort v h

theorem pdMode_ne_nil (l : List PyVal) (h : dropNone l ≠ []) : pdMode l ≠ [] := by
  set vals := dropNone l with hvals
  set maxc := (vals.dedup.map (fun v => vals.count v)).foldr Nat.max 0 with hmaxc
  have hperm : (pdMode l).Perm
      (vals.dedup.filter (fun v => decide (vals.count v = maxc))) :=
    List.perm_insertionSort pyLeP _
  intro he
  rw [he] at hperm
  have hflt := hperm.symm.eq_nil
  have huniq : vals.dedup ≠ [] := by
    cases hv : vals with
    | nil => exact absurd hv h
    | cons x xs =>
      intro hd
      have hx : x ∈ (x :: xs).dedup := List.mem_dedup.mpr (List.mem_cons_self x xs)
      rw [hd] at hx
      exact List.not_mem_nil x hx
  have hcnts : vals.dedup.map (fun v => vals.count v) ≠ [] := by
    simpa using huniq
  have hmem := foldr_max_mem _ hcnts
  rw [← hmaxc] at hmem
  obtain ⟨v, hvmem, hvc⟩ := List.mem_map.mp hmem
  have : v ∈ vals.dedup.filter (fun v => decide (vals.count v = maxc)) :=
    List.mem_filter.mpr ⟨hvmem, by simp [hvc]⟩
  rw [hflt] at this
  exact List.not_mem_nil v this

theorem pdMode_spec (l : List PyVal) :
    ∀ m rest, pdMode l = m :: rest →
      m ∈ dropNone l
      ∧ (∀ v ∈ dropNone l, (dropNone l).count v ≤ (dropNone l).count m)
      ∧ (∀ v ∈ dropNone l, (dropNone l).count v = (dropNone l).count m →
          pyLe m v = true) := by
  intro m rest hM
  set vals := dropNone l with hvals
  set maxc := (vals.dedup.map (fun v => vals.count v)).foldr Nat.max 0 with hmaxc
  have hperm : (pdMode l).Perm
      (vals.dedup.filter (fun v => decide (vals.count v = maxc))) :=
    List.perm_insertionSort pyLeP _
  rw [hM] at hperm
  have hmF : m ∈ vals.dedup.filter (fun v => decide (vals.count v = maxc)) :=
    hperm.mem_iff.mp (List.mem_cons_self m rest)
  obtain ⟨hmdedup, hmc⟩ := List.mem_filter.mp hmF
  have hmc2 : vals.count m = maxc := by simpa using hmc
  refine ⟨List.mem_dedup.mp hmdedup, ?_, ?_⟩
  · intro v hv
    rw [hmc2]
    apply le_foldr_max
    exact List.mem_map.mpr ⟨v, List.mem_dedup.mpr hv, rfl⟩
  · intro v hv hvc
    have hvF : v ∈ vals.dedup.filter (fun v => decide (vals.count v = maxc)) :=
      List.mem_filter.mpr ⟨List.mem_dedup.mpr hv, by simp [hvc, hmc2]⟩
    have hsortEq : List.insertionSort pyLeP
        (vals.dedup.filter (fun v => decide (vals.count v = maxc))) = m :: rest := hM
    exact sorted_head_min _ m rest hsortEq v hvF

/-! ## Helper lemmas: merged group vs pre-join rows -/

theorem emitFor_singleton_of_unique (cat : List CatalogRow) (r : ActivityRow)
    (h : (cat.filter (fun c => decide (c.tcode = r.tcode))).length ≤ 1) :
    ∃ lt dc, emitFor cat r
      = [⟨r.tcode, r.userName, r.userID, r.license, lt, dc⟩] := by
  unfold emitFor
  cases hm : cat.filter (fun c => decide (c.tcode = r.tcode)) with
  | nil => exact ⟨PyVal.none, PyVal.none, rfl⟩
  | cons c cs =>
    have hlen : (c :: cs).length ≤ 1 := hm ▸ h
    cases cs with
    | nil => exact ⟨c.licenseType, c.description, rfl⟩
    | cons c2 cs2 => simp at hlen

theorem mergeLeft_filter_user (us : List ActivityRow) (cat : List CatalogRow) (u : PyVal)
    (H : ∀ r ∈ us, (cat.filter (fun c => decide (c.tcode = r.tcode))).length ≤ 1) :
    ((mergeLeft us cat).filter (fun m => decide (m.userName = u))).map (fun m => m.license)
      = (us.filter (fun r => decide (r.userName = u))).map (fun r => r.license) := by
  induction us with
  | nil => rfl
  | cons r rest ih =>
    have hr := H r (List.mem_cons_self r rest)
    have Hrest : ∀ x ∈ rest, (cat.filter (fun c => decide (c.tcode = x.tcode))).length ≤ 1 :=
      fun x hx => H x (List.mem_cons_of_mem r hx)
    obtain ⟨lt, dc, he⟩ := emitFor_singleton_of_unique cat r hr
    rw [mergeLeft_cons, List.filter_append, List.map_append, ih Hrest, he]
    by_cases hu : r.userName = u
    · simp [List.filter_cons, hu]
    · simp [List.filter_cons, hu]

/-! ## Claim theorems: current license (C4) -/

/-- C4 (amended): when the catalog has at most one entry per activity
Tcode (no join fan-out), the engine's per-user current license equals
the spec's pre-join rule: the most frequent non-absent pre-join License
value with ties broken deterministically. Moreover, unconditionally:
a missing License column or an all-absent field yields the Not Assigned
sentinel, and whenever the mode branch runs, the engine's result is a
most frequent non-absent value of what it is given, ties broken by the
smallest value in code-point order. -/
theorem current_license_spec :
    (∀ (hasLic : Bool) (us : List ActivityRow) (cat : List CatalogRow) (u : PyVal),
      (∀ r ∈ us, (cat.filter (fun c => decide (c.tcode = r.tcode))).length ≤ 1) →
      current_license hasLic ((groupOf (mergeLeft us cat) u).map (fun m => m.license))
        = spec_current_license hasLic
            ((us.filter (fun r => decide (r.userName = u))).map (fun r => r.license)))
    ∧ (∀ vals, current_license false vals = NOT_ASSIGNED)
    ∧ (∀ vals, dropNone vals = [] → current_license true vals = NOT_ASSIGNED)
    ∧ (∀ vals, dropNone vals ≠ [] →
        current_license true vals ∈ dropNone vals
        ∧ (∀ v ∈ dropNone vals,
            (dropNone vals).count v ≤ (dropNone vals).count (current_license true vals))
        ∧ (∀ v ∈ dropNone vals,
            (dropNone vals).count v = (dropNone vals).count (current_license true vals) →
            pyLe (current_license true vals) v = true)) := by
  refine ⟨?_, ?_, ?_, ?_⟩
  · intro hasLic us cat u H
    unfold groupOf
    rw [mergeLeft_filter_user us cat u H]
    rfl
  · intro vals
    rfl
  · intro vals h
    simp [current_license, h]
  · intro vals h
    have hne := pdMode_ne_nil vals h
    cases hM : pdMode vals with
    | nil => exact absurd hM hne
    | cons m rest =>
      have hE : (dropNone vals).isEmpty = false := by
        cases hE2 : (dropNone vals).isEmpty
        · rfl
        · exact absurd (List.isEmpty_iff.mp hE2) h
      have hres : current_license true vals = m := by
        simp [current_license, hE, hM]
      rw [hres]
      exact pdMode_spec vals m rest hM

/-- Witness for C4: one user row, one catalog match; the engine result
equals the spec rule on the pre-join row. -/
theorem current_license_spec_witness :
    current_license true
        ((groupOf
            (mergeLeft ([⟨pv "T1", pv "U", PyVal.none, pv "Z"⟩] : List ActivityRow)
              ([⟨pv "T1", pv "Functional", PyVal.none⟩] : List CatalogRow))
            (pv "U")).map (fun m => m.license))
      = spec_current_license true
          ((([⟨pv "T1", pv "U", PyVal.none, pv "Z"⟩] : List ActivityRow).filter
              (fun r => decide (r.userName = pv "U"))).map (fun r => r.license)) :=
  current_license_spec.1 true [⟨pv "T1", pv "U", PyVal.none, pv "Z"⟩]
    [⟨pv "T1", pv "Functional", PyVal.none⟩] (pv "U") (by decide)

/-- Counterexample to C4 as stated: with a catalog holding a duplicated
Tcode key, the join fans out and the engine computes the mode over the
post-join License values. User U has pre-join License values
[Z, A, A] — A is the unique most frequent — but the engine returns Z,
whose post-join count is inflated to 3 by the fan-out. -/
theorem current_license_prejoin_counterexample :
    current_license true
        ((groupOf
            (mergeLeft
              ([⟨pv "T1", pv "U", PyVal.none, pv "Z"⟩,
                ⟨pv "T2", pv "U", PyVal.none, pv "A"⟩,
                ⟨pv "T3", pv "U", PyVal.none, pv "A"⟩] : List ActivityRow)
              ([⟨pv "T1", pv "Functional", PyVal.none⟩,
                ⟨pv "T1", pv "Functional", PyVal.none⟩,
                ⟨pv "T1", pv "Functional", PyVal.none⟩,
                ⟨pv "T2", pv "Professional", PyVal.none⟩,
                ⟨pv "T3", pv "Productivity", PyVal.none⟩] : List CatalogRow))
            (pv "U")).map (fun m => m.license))
      = pv "Z"
    ∧ ((([⟨pv "T1", pv "U", PyVal.none, pv "Z"⟩,
          ⟨pv "T2", pv "U", PyVal.none, pv "A"⟩,
          ⟨pv "T3", pv "U", PyVal.none, pv "A"⟩] : List ActivityRow).filter
            (fun r => decide (r.userName = pv "U"))).map (fun r => r.license))
        = [pv "Z", pv "A", pv "A"]
    ∧ [pv "Z", pv "A", pv "A"].count (pv "Z") = 1
    ∧ [pv "Z", pv "A", pv "A"].count (pv "A") = 2
    ∧ spec_current_license true [pv "Z", pv "A", pv "A"] = pv "A"
    ∧ (pv "Z" : PyVal) ≠ pv "A" := by
  refine ⟨by decide, by decide, by decide, by decide, by decide, by decide⟩

/-! ## Claim theorems: input validation (C5) -/

/-- C5 (amended): the load-time validation blocks with a descriptive
error exactly when `Tcode` is missing from either dataset or
`License Type` is missing from the catalog dataset; the activity
dataset's `User Name` column is not checked. -/
theorem validate_columns_spec :
    ∀ userCols masterCols,
      validate_columns userCols masterCols = ProcResult.proceeds
        ↔ (TCODE_COL ∈ userCols ∧ TCODE_COL ∈ masterCols
            ∧ LICENSE_TYPE_COL ∈ masterCols) := by
  intro userCols masterCols
  by_cases h1 : TCODE_COL ∈ userCols <;>
    by_cases h2 : TCODE_COL ∈ masterCols <;>
      by_cases h3 : LICENSE_TYPE_COL ∈ masterCols <;>
        simp [validate_columns, h1, h2, h3]

/-- Counterexample to C5 as stated: an activity dataset that lacks the
required `User Name` column (it has only `Tcode`) passes validation —
processing proceeds with no blocking error. -/
theorem validate_columns_counterexample :
    USER_NAME_COL ∉ [TCODE_COL]
    ∧ validate_columns [TCODE_COL] [TCODE_COL, LICENSE_TYPE_COL]
        = ProcResult.proceeds := by
  refine ⟨by decide, by decide⟩

/-! ## Claim theorems: bulk report shape (C8) -/

/-- C8: the bulk report built over the join of an activity dataset and
a catalog has exactly one row per distinct non-absent user name of the
activity dataset, with no duplicate users, and its row order is the
ascending code-point order of user names — a deterministic function of
the activity dataset alone. -/
theorem bulk_report_rows :
    ∀ (hasLic hasUid : Bool) (us : List ActivityRow) (cat : List CatalogRow),
      (bulk_report hasLic hasUid (mergeLeft us cat)).length
          = (dropNone (us.map (fun r => r.userName))).dedup.length
      ∧ ((bulk_report hasLic hasUid (mergeLeft us cat)).map
          (fun row => row.userName)).Nodup
      ∧ (bulk_report hasLic hasUid (mergeLeft us cat)).map (fun row => row.userName)
          = List.insertionSort pyLeP (dropNone (us.map (fun r => r.userName))).dedup := by
  intro hasLic hasUid us cat
  have hproj : (fun u => (assessUser hasLic hasUid u
      (groupOf (mergeLeft us cat) u)).userName) = fun u : PyVal => u := by
    funext u
    rfl
  have F1 : (bulk_report hasLic hasUid (mergeLeft us cat)).map (fun row => row.userName)
      = groupKeys (mergeLeft us cat) := by
    unfold bulk_report
    rw [List.map_map]
    show List.map (fun u => (assessUser hasLic hasUid u
      (groupOf (mergeLeft us cat) u)).userName) (groupKeys (mergeLeft us cat))
      = groupKeys (mergeLeft us cat)
    rw [hproj]
    exact List.map_id _
  have hmm : ∀ x : PyVal,
      x ∈ (mergeLeft us cat).map (fun m => m.userName)
        ↔ x ∈ us.map (fun r => r.userName) := by
    intro x
    constructor
    · intro hx
      obtain ⟨m, hm, hxm⟩ := List.mem_map.mp hx
      obtain ⟨r, hr, hmr⟩ := List.mem_flatMap.mp hm
      refine List.mem_map.mpr ⟨r, hr, ?_⟩
      rw [← hxm]
      exact ((emitFor_fields cat r m hmr).2.1).symm
    · intro hx
      obtain ⟨r, hr, hxr⟩ := List.mem_map.mp hx
      obtain ⟨m, hm, hf⟩ := emitFor_exists cat r
      refine List.mem_map.mpr ⟨m, List.mem_flatMap.mpr ⟨r, hr, hm⟩, ?_⟩
      rw [hf.2.1, hxr]
  have hset : ∀ x : PyVal,
      x ∈ dropNone ((mergeLeft us cat).map (fun m => m.userName))
        ↔ x ∈ dropNone (us.map (fun r => r.userName)) := by
    intro x
    unfold dropNone
    simp only [List.mem_filter]
    rw [hmm x]
  have hperm : (dropNone ((mergeLeft us cat).map (fun m => m.userName))).dedup.Perm
      (dropNone (us.map (fun r => r.userName))).dedup := by
    rw [List.perm_ext_iff_of_nodup (List.nodup_dedup _) (List.nodup_dedup _)]
    intro a
    rw [List.mem_dedup, List.mem_dedup]
    exact hset a
  have hlen : (bulk_report hasLic hasUid (mergeLeft us cat)).length
      = (dropNone (us.map (fun r => r.userName))).dedup.length := by
    have h0 : (bulk_report hasLic hasUid (mergeLeft us cat)).length
        = ((bulk_report hasLic hasUid (mergeLeft us cat)).map
            (fun row => row.userName)).length := (List.length_map _ _).symm
    rw [h0, F1]
    unfold groupKeys
    rw [(List.perm_insertionSort pyLeP _).length_eq]
    exact hperm.length_eq
  refine ⟨hlen, ?_, ?_⟩
  · rw [F1]
    unfold groupKeys
    exact ((List.perm_insertionSort pyLeP _).nodup_iff).mpr (List.nodup_dedup _)
  · rw [F1]
    unfold groupKeys
    haveI : IsTotal PyVal pyLeP := ⟨pyLe_total⟩
    haveI : IsTrans PyVal pyLeP := ⟨fun a b c => pyLe_trans a b c⟩
    haveI : IsAntisymm PyVal pyLeP := ⟨fun a b => pyLe_antisymm a b⟩
    refine List.eq_of_perm_of_sorted ?_
      (List.sorted_insertionSort pyLeP _) (List.sorted_insertionSort pyLeP _)
    exact ((List.perm_insertionSort pyLeP _).trans hperm).trans
      (List.perm_insertionSort pyLeP _).symm

end SoD
